import Mathlib

/-!
Verification development for the offline project analyzer
(`backend/services/project_analyzer.py` and the search endpoint of
`backend/app.py`).  Python data is embedded shallowly: relative paths and
route strings become `String`, dictionaries become association lists with
insertion-order semantics, regular-expression scans over file contents are
either implemented character by character (for the fixed patterns the code
uses) or abstracted into boolean/input parameters where only the scan's
outcome matters.  Machine-independent `Nat`/`ℚ` arithmetic replaces Python
ints and floats (the layout arithmetic stays small and exact).
-/

-- ===================================================================
-- Generic association-list helpers (Python `dict` semantics)
-- ===================================================================

/-- Lookup in an association list: first entry whose key matches.  With the
keys kept distinct this is exactly a Python `dict` lookup. -/
def lookupKey {κ β : Type} [DecidableEq κ] (k : κ) : List (κ × β) → Option β
  | [] => none
  | p :: rest => if p.1 = k then some p.2 else lookupKey k rest

/-- Replace the value stored under key `k` (Python `d[k] = v` on an existing
key: the entry keeps its position). -/
def replaceKey {κ β : Type} [DecidableEq κ] (l : List (κ × β)) (k : κ) (v : β) :
    List (κ × β) :=
  l.map (fun p => if p.1 = k then (k, v) else p)

/-- Python `d[k] = v`: overwrite in place when the key exists, append a fresh
entry otherwise. -/
def dict_insert {κ β : Type} [DecidableEq κ] (l : List (κ × β)) (k : κ) (v : β) :
    List (κ × β) :=
  if (lookupKey k l).isSome then replaceKey l k v else l ++ [(k, v)]

theorem lookupKey_append {κ β : Type} [DecidableEq κ] (k k' : κ) (v : β)
    (l : List (κ × β)) :
    lookupKey k (l ++ [(k', v)]) =
      match lookupKey k l with
      | some w => some w
      | none => if k' = k then some v else none := by
  induction l with
  | nil => simp [lookupKey]
  | cons p rest ih =>
      by_cases h : p.1 = k <;> simp [lookupKey, h, ih]

theorem lookupKey_replaceKey {κ β : Type} [DecidableEq κ] (k k' : κ) (v : β)
    (l : List (κ × β)) :
    lookupKey k (replaceKey l k' v) =
      if k' = k then
        (match lookupKey k l with
         | some _ => some v
         | none => none)
      else lookupKey k l := by
  induction l with
  | nil => by_cases h : k' = k <;> simp [lookupKey, replaceKey, h]
  | cons p rest ih =>
      by_cases h1 : p.1 = k' <;> by_cases h2 : k' = k <;>
        simp [lookupKey, replaceKey, h1, h2] at * <;>
        simp [h1, h2, ih] at *

theorem lookupKey_eq_none_iff {κ β : Type} [DecidableEq κ] (k : κ)
    (l : List (κ × β)) :
    lookupKey k l = none ↔ k ∉ l.map Prod.fst := by
  induction l with
  | nil => simp [lookupKey]
  | cons p rest ih =>
      by_cases h : p.1 = k <;> simp [lookupKey, h, ih] <;> tauto

theorem mem_of_lookupKey_eq_some {κ β : Type} [DecidableEq κ] {k : κ} {v : β}
    {l : List (κ × β)} (h : lookupKey k l = some v) : (k, v) ∈ l := by
  induction l with
  | nil => simp [lookupKey] at h
  | cons p rest ih =>
      by_cases hh : p.1 = k
      · simp [lookupKey, hh] at h
        subst hh; subst h
        simp
      · simp [lookupKey, hh] at h
        exact List.mem_cons_of_mem _ (ih h)

theorem lookupKey_eq_some_of_mem {κ β : Type} [DecidableEq κ] {k : κ} {v : β}
    {l : List (κ × β)} (hnd : (l.map Prod.fst).Nodup) (h : (k, v) ∈ l) :
    lookupKey k l = some v := by
  induction l with
  | nil => simp at h
  | cons p rest ih =>
      rw [List.map_cons, List.nodup_cons] at hnd
      rcases List.mem_cons.mp h with h1 | h1
      · subst h1; simp [lookupKey]
      · have hk : p.1 ≠ k := by
          intro hk
          exact hnd.1 (by
            rw [hk]
            exact List.mem_map.mpr ⟨(k, v), h1, rfl⟩)
        simp [lookupKey, hk]
        exact ih hnd.2 h1

theorem map_fst_replaceKey {κ β : Type} [DecidableEq κ] (l : List (κ × β))
    (k : κ) (v : β) :
    (replaceKey l k v).map Prod.fst = l.map Prod.fst := by
  unfold replaceKey
  rw [List.map_map]
  apply List.map_congr_left
  intro p _
  by_cases h : p.1 = k <;> simp [h]

-- ===================================================================
-- Edge types and deduplication (`_extract_edges`, final pass)
-- ===================================================================

/-- The three edge types emitted by `_extract_edges`.  The source spells the
third one `'import'`; it is rendered `imp` here. -/
inductive EdgeType where
  | api_call : EdgeType
  | state_usage : EdgeType
  | imp : EdgeType
deriving DecidableEq, Repr

/-- `TYPE_PRIORITY = {'api_call': 0, 'state_usage': 1, 'import': 2}`.  Every
edge type has an entry, so the `.get(etype, 9)` fallback in the source is
unreachable. -/
def TYPE_PRIORITY : EdgeType → Nat
  | .api_call => 0
  | .state_usage => 1
  | .imp => 2

/-- One iteration of the dedup loop of `_extract_edges`: skip self-loops,
record a fresh (source, target) pair, and overwrite a recorded pair only when
the new type has strictly smaller priority value. -/
def dedup_step {α : Type} [DecidableEq α]
    (seen : List ((α × α) × EdgeType)) (e : α × α × EdgeType) :
    List ((α × α) × EdgeType) :=
  if e.1 = e.2.1 then seen
  else
    match lookupKey (e.1, e.2.1) seen with
    | none => seen ++ [((e.1, e.2.1), e.2.2)]
    | some t0 =>
        if TYPE_PRIORITY e.2.2 < TYPE_PRIORITY t0 then
          replaceKey seen (e.1, e.2.1) e.2.2
        else seen

/-- The dedup pass at the end of `_extract_edges`:
`seen` starts empty, every `(src, tgt, etype)` is folded through
`dedup_step`, and `seen.items()` is flattened back to triples. -/
def dedup_edges {α : Type} [DecidableEq α] (edges : List (α × α × EdgeType)) :
    List (α × α × EdgeType) :=
  (edges.foldl dedup_step []).map (fun kt => (kt.1.1, kt.1.2, kt.2))

/-- Edge types offered for a given (source, target) key by the raw edge list,
self-loops excluded — the candidates dedup chooses between. -/
def typesAt {α : Type} [DecidableEq α] (k : α × α)
    (edges : List (α × α × EdgeType)) : List EdgeType :=
  edges.filterMap
    (fun e => if e.1 ≠ e.2.1 ∧ (e.1, e.2.1) = k then some e.2.2 else none)

/-- Fold the priority choice over a candidate list, starting from an optional
already-recorded type. -/
def bestOpt (o : Option EdgeType) (l : List EdgeType) : Option EdgeType :=
  l.foldl
    (fun acc t =>
      match acc with
      | none => some t
      | some t0 => if TYPE_PRIORITY t < TYPE_PRIORITY t0 then some t else some t0)
    o

theorem bestOpt_cons (o : Option EdgeType) (t : EdgeType) (l : List EdgeType) :
    bestOpt o (t :: l) =
      bestOpt
        (match o with
         | none => some t
         | some t0 => if TYPE_PRIORITY t < TYPE_PRIORITY t0 then some t else some t0)
        l := rfl

theorem bestOpt_some_ne_none (t : EdgeType) (l : List EdgeType) :
    bestOpt (some t) l ≠ none := by
  induction l generalizing t with
  | nil => simp [bestOpt]
  | cons t' l ih =>
      rw [bestOpt_cons]
      by_cases h : TYPE_PRIORITY t' < TYPE_PRIORITY t <;> simp [h, ih]

theorem bestOpt_eq_none (o : Option EdgeType) (l : List EdgeType) :
    bestOpt o l = none ↔ o = none ∧ l = [] := by
  cases o with
  | none =>
      cases l with
      | nil => simp [bestOpt]
      | cons t l => rw [bestOpt_cons]; simp [bestOpt_some_ne_none]
  | some t => simp [bestOpt_some_ne_none]

theorem bestOpt_spec (l : List EdgeType) :
    ∀ (o : Option EdgeType) (t : EdgeType), bestOpt o l = some t →
      (o = some t ∨ t ∈ l) ∧ (∀ t' ∈ l, TYPE_PRIORITY t ≤ TYPE_PRIORITY t') ∧
        (∀ t0, o = some t0 → TYPE_PRIORITY t ≤ TYPE_PRIORITY t0) := by
  induction l with
  | nil =>
      intro o t h
      simp [bestOpt] at h
      subst h
      exact ⟨Or.inl rfl, by simp, fun t0 h0 => by cases h0; exact le_refl _⟩
  | cons t' l ih =>
      intro o t h
      rw [bestOpt_cons] at h
      cases o with
      | none =>
          have hspec := ih (some t') t h
          refine ⟨Or.inr ?_, ?_, by simp⟩
          · rcases hspec.1 with h1 | h1
            · simp at h1; simp [h1]
            · simp [h1]
          · intro u hu
            rcases List.mem_cons.mp hu with h1 | h1
            · subst h1; exact hspec.2.2 u rfl
            · exact hspec.2.1 u h1
      | some t0 =>
          by_cases hlt : TYPE_PRIORITY t' < TYPE_PRIORITY t0
          · simp only [hlt, if_pos] at h
            have hspec := ih (some t') t h
            refine ⟨?_, ?_, ?_⟩
            · rcases hspec.1 with h1 | h1
              · simp at h1; exact Or.inr (by simp [h1])
              · exact Or.inr (List.mem_cons_of_mem _ h1)
            · intro u hu
              rcases List.mem_cons.mp hu with h1 | h1
              · subst h1; exact hspec.2.2 u rfl
              · exact hspec.2.1 u h1
            · intro u hu
              cases hu
              exact le_trans (hspec.2.2 t' rfl) (le_of_lt hlt)
          · simp only [hlt, if_neg, not_false_iff] at h
            have hspec := ih (some t0) t h
            refine ⟨?_, ?_, ?_⟩
            · rcases hspec.1 with h1 | h1
              · exact Or.inl h1
              · exact Or.inr (List.mem_cons_of_mem _ h1)
            · intro u hu
              rcases List.mem_cons.mp hu with h1 | h1
              · subst h1
                exact le_trans (hspec.2.2 t0 rfl) (le_of_not_lt hlt)
              · exact hspec.2.1 u h1
            · exact hspec.2.2

theorem typesAt_cons {α : Type} [DecidableEq α] (k : α × α)
    (e : α × α × EdgeType) (es : List (α × α × EdgeType)) :
    typesAt k (e :: es) =
      if e.1 ≠ e.2.1 ∧ (e.1, e.2.1) = k then e.2.2 :: typesAt k es
      else typesAt k es := by
  by_cases h : e.1 ≠ e.2.1 ∧ (e.1, e.2.1) = k <;> simp [typesAt, h]

theorem mem_typesAt_of_mem {α : Type} [DecidableEq α] {s t : α} {ty : EdgeType}
    {es : List (α × α × EdgeType)} (h : (s, t, ty) ∈ es) (hne : s ≠ t) :
    ty ∈ typesAt (s, t) es := by
  refine List.mem_filterMap.mpr ⟨(s, t, ty), h, ?_⟩
  simp [hne]

theorem of_mem_typesAt {α : Type} [DecidableEq α] {s t : α} {ty : EdgeType}
    {es : List (α × α × EdgeType)} (h : ty ∈ typesAt (s, t) es) :
    s ≠ t ∧ (s, t, ty) ∈ es := by
  rcases List.mem_filterMap.mp h with ⟨⟨a, b, c⟩, he, hcond⟩
  simp only [ne_eq, Option.ite_none_right_eq_some, Option.some.injEq,
    Prod.mk.injEq] at hcond
  obtain ⟨⟨hab, ha, hb⟩, hc⟩ := hcond
  subst ha; subst hb; subst hc
  exact ⟨hab, he⟩

theorem dedup_fold_lookup {α : Type} [DecidableEq α] (k : α × α)
    (es : List (α × α × EdgeType)) :
    ∀ (seen : List ((α × α) × EdgeType)),
      lookupKey k (es.foldl dedup_step seen) =
        bestOpt (lookupKey k seen) (typesAt k es) := by
  induction es with
  | nil => intro seen; simp [typesAt, bestOpt]
  | cons e es ih =>
      intro seen
      rw [List.foldl_cons, typesAt_cons]
      by_cases hloop : e.1 = e.2.1
      · have hcond : ¬(e.1 ≠ e.2.1 ∧ (e.1, e.2.1) = k) := fun hc => hc.1 hloop
        rw [if_neg hcond]
        rw [show dedup_step seen e = seen by simp [dedup_step, hloop]]
        exact ih seen
      · by_cases hkey : (e.1, e.2.1) = k
        · have hcond : e.1 ≠ e.2.1 ∧ (e.1, e.2.1) = k := ⟨hloop, hkey⟩
          rw [if_pos hcond]
          rw [bestOpt_cons, ih (dedup_step seen e)]
          congr 1
          rw [show dedup_step seen e =
                (match lookupKey (e.1, e.2.1) seen with
                 | none => seen ++ [((e.1, e.2.1), e.2.2)]
                 | some t0 =>
                     if TYPE_PRIORITY e.2.2 < TYPE_PRIORITY t0 then
                       replaceKey seen (e.1, e.2.1) e.2.2
                     else seen) by simp [dedup_step, hloop]]
          cases hl : lookupKey (e.1, e.2.1) seen with
          | none =>
              rw [lookupKey_append]
              rw [hkey] at hl
              simp [hl, hkey]
          | some t0 =>
              rw [hkey] at hl
              by_cases hp : TYPE_PRIORITY e.2.2 < TYPE_PRIORITY t0
              · simp only [hp, if_pos]
                rw [lookupKey_replaceKey]
                simp [hkey, hl, hp]
              · simp only [hp, if_neg, not_false_iff]
                simp [hl, hp]
        · have hcond : ¬(e.1 ≠ e.2.1 ∧ (e.1, e.2.1) = k) := fun hc => hkey hc.2
          rw [if_neg hcond]
          rw [ih (dedup_step seen e)]
          congr 1
          rw [show dedup_step seen e =
                (match lookupKey (e.1, e.2.1) seen with
                 | none => seen ++ [((e.1, e.2.1), e.2.2)]
                 | some t0 =>
                     if TYPE_PRIORITY e.2.2 < TYPE_PRIORITY t0 then
                       replaceKey seen (e.1, e.2.1) e.2.2
                     else seen) by simp [dedup_step, hloop]]
          cases hl : lookupKey (e.1, e.2.1) seen with
          | none =>
              rw [lookupKey_append]
              simp only [hkey, if_neg, not_false_iff]
              cases lookupKey k seen <;> rfl
          | some t0 =>
              by_cases hp : TYPE_PRIORITY e.2.2 < TYPE_PRIORITY t0
              · simp only [hp, if_pos]
                rw [lookupKey_replaceKey]
                simp [hkey]
              · simp [hp]

theorem dedup_fold_keys_nodup {α : Type} [DecidableEq α]
    (es : List (α × α × EdgeType)) :
    ∀ (seen : List ((α × α) × EdgeType)),
      ((seen.map Prod.fst).Nodup) →
      (((es.foldl dedup_step seen).map Prod.fst).Nodup) := by
  induction es with
  | nil => intro seen h; simpa using h
  | cons e es ih =>
      intro seen h
      rw [List.foldl_cons]
      apply ih
      unfold dedup_step
      by_cases hloop : e.1 = e.2.1
      · simpa [hloop]
      · simp only [hloop, if_neg, not_false_iff]
        cases hl : lookupKey (e.1, e.2.1) seen with
        | none =>
            have hnotin : (e.1, e.2.1) ∉ seen.map Prod.fst :=
              (lookupKey_eq_none_iff _ _).mp hl
            simp [List.nodup_append, h, hnotin]
        | some t0 =>
            by_cases hp : TYPE_PRIORITY e.2.2 < TYPE_PRIORITY t0 <;>
              simp [hp, map_fst_replaceKey, h]

theorem mem_dedup_iff_lookup {α : Type} [DecidableEq α] {s t : α}
    {ty : EdgeType} (edges : List (α × α × EdgeType)) :
    (s, t, ty) ∈ dedup_edges edges ↔
      lookupKey (s, t) (edges.foldl dedup_step []) = some ty := by
  constructor
  · intro h
    rcases List.mem_map.mp h with ⟨⟨⟨a, b⟩, c⟩, hm, he⟩
    simp only [Prod.mk.injEq] at he
    obtain ⟨ha, hb, hc⟩ := he
    subst ha; subst hb; subst hc
    exact lookupKey_eq_some_of_mem
      (dedup_fold_keys_nodup edges [] (by simp)) hm
  · intro h
    exact List.mem_map.mpr ⟨((s, t), ty), mem_of_lookupKey_eq_some h, rfl⟩

/-- C1.  The deduplicated edge set produced by the final pass of
`_extract_edges` (i) contains no self-loop, (ii) contains at most one edge
per (source, target) pair, (iii) keeps, for each surviving pair, a type of
minimal `TYPE_PRIORITY` value among all raw edges offered for that pair
(priority order api_call > state_usage > import under the numeric table),
and (iv) keeps some edge for every non-self-loop pair of the raw list.
Together (iii) and (iv) give the claim's instance: a pair with both
an import edge and an api_call raw edge survives with the api_call
type. -/
theorem C1_edge_dedup {α : Type} [DecidableEq α]
    (edges : List (α × α × EdgeType)) :
    (∀ s t ty, (s, t, ty) ∈ dedup_edges edges → s ≠ t)
    ∧ ((dedup_edges edges).map (fun e => (e.1, e.2.1))).Nodup
    ∧ (∀ s t ty, (s, t, ty) ∈ dedup_edges edges →
        ∀ ty', (s, t, ty') ∈ edges →
          TYPE_PRIORITY ty ≤ TYPE_PRIORITY ty')
    ∧ (∀ s t ty, (s, t, ty) ∈ edges → s ≠ t →
        ∃ ty2, (s, t, ty2) ∈ dedup_edges edges) := by
  have hkeys :
      (dedup_edges edges).map (fun e => (e.1, e.2.1)) =
        (edges.foldl dedup_step []).map Prod.fst := by
    unfold dedup_edges
    rw [List.map_map]
    rfl
  refine ⟨?_, ?_, ?_, ?_⟩
  · intro s t ty hmem
    have hl := (mem_dedup_iff_lookup edges).mp hmem
    rw [dedup_fold_lookup] at hl
    simp only [lookupKey] at hl
    have hspec := bestOpt_spec _ _ _ hl
    rcases hspec.1 with h1 | h1
    · exact absurd h1 (by simp)
    · exact (of_mem_typesAt h1).1
  · rw [hkeys]
    exact dedup_fold_keys_nodup edges [] (by simp)
  · intro s t ty hmem ty' hmem'
    have hl := (mem_dedup_iff_lookup edges).mp hmem
    rw [dedup_fold_lookup] at hl
    simp only [lookupKey] at hl
    have hspec := bestOpt_spec _ _ _ hl
    have hne : s ≠ t := by
      rcases hspec.1 with h1 | h1
      · exact absurd h1 (by simp)
      · exact (of_mem_typesAt h1).1
    exact hspec.2.1 ty' (mem_typesAt_of_mem hmem' hne)
  · intro s t ty hmem hne
    have hmemT : ty ∈ typesAt (s, t) edges := mem_typesAt_of_mem hmem hne
    have hnn : bestOpt (lookupKey (s, t) ([] : List ((α × α) × EdgeType)))
        (typesAt (s, t) edges) ≠ none := by
      simp only [lookupKey]
      intro hc
      rcases (bestOpt_eq_none _ _).mp hc with ⟨_, he⟩
      rw [he] at hmemT
      simp at hmemT
    rw [← dedup_fold_lookup] at hnn
    cases hl : lookupKey (s, t) (edges.foldl dedup_step []) with
    | none => exact absurd hl hnn
    | some ty2 => exact ⟨ty2, (mem_dedup_iff_lookup edges).mpr hl⟩

/-- Witness for C1 at a concrete edge list: the pair (1, 2) is offered both
an import and an api_call edge, plus a self-loop at 3; some edge for (1, 2)
survives dedup. -/
theorem C1_edge_dedup_witness :
    ∃ ty2, ((1 : Nat), (2 : Nat), ty2) ∈
      dedup_edges [(1, 2, EdgeType.imp), (1, 2, EdgeType.api_call),
        (3, 3, EdgeType.imp)] :=
  (C1_edge_dedup
      [(1, 2, EdgeType.imp), (1, 2, EdgeType.api_call),
        (3, 3, EdgeType.imp)]).2.2.2
    1 2 EdgeType.imp (by decide) (by decide)

-- ===================================================================
-- String helpers shared by several components
-- ===================================================================

/-- ASCII lower-casing of one character, the fragment of Python `str.lower`
exercised by the analyzer's fixed tables (all table keys are ASCII). -/
def lower_char (c : Char) : Char :=
  if 'A' ≤ c ∧ c ≤ 'Z' then Char.ofNat (c.toNat + 32) else c

/-- ASCII lower-casing of a string (Python `str.lower` on ASCII input). -/
def lower_str (s : String) : String :=
  String.mk (s.data.map lower_char)

/-- Bool test that `pre` is a prefix of `l` (Python `str.startswith` on the
character level). -/
def isPrefixList {χ : Type} [DecidableEq χ] : List χ → List χ → Bool
  | [], _ => true
  | _ :: _, [] => false
  | a :: as, b :: bs => decide (a = b) && isPrefixList as bs

/-- Bool test that `suf` is a suffix of the string `s` (Python
`str.endswith`). -/
def ends_with_str (s suf : String) : Bool :=
  isPrefixList suf.data.reverse s.data.reverse

/-- Bool test that string `s` starts with string `pre` (Python
`str.startswith`). -/
def starts_with_str (s pre : String) : Bool :=
  isPrefixList pre.data s.data

/-- `pathlib.Path.suffix`: the part of the name from the last dot on, empty
when the last dot is the first character, the last character, or absent. -/
def path_suffix (name : String) : String :=
  let cs := name.data
  if '.' ∈ cs then
    let tailRev := cs.reverse.takeWhile (fun c => decide (c ≠ '.'))
    if tailRev.length + 1 < cs.length ∧ 0 < tailRev.length then
      String.mk ('.' :: tailRev.reverse)
    else ""
  else ""

-- ===================================================================
-- Layer classification (`_categorize_files` and its fixed tables)
-- ===================================================================

/-- The four layers (bucket names) of the classifier. -/
inductive Layer where
  | publishing : Layer
  | logic : Layer
  | backend : Layer
  | other : Layer
deriving DecidableEq, Repr

/-- `SKIP_FILES`: boilerplate filenames always sent to the "other" bucket. -/
def SKIP_FILES : List String :=
  ["__init__.py", "__pycache__", "setup.py", "conftest.py"]

/-- `DIR_TYPE_MAP`: directory-name to layer table (primary criterion). -/
def DIR_TYPE_MAP : List (String × Layer) :=
  [("views", .publishing), ("pages", .publishing),
   ("components", .publishing), ("component", .publishing),
   ("layouts", .publishing), ("layout", .publishing),
   ("templates", .publishing), ("template", .publishing),
   ("stores", .logic), ("store", .logic),
   ("composables", .logic), ("hooks", .logic),
   ("services", .logic), ("service", .logic),
   ("api", .backend),
   ("routes", .backend), ("route", .backend),
   ("server", .backend),
   ("controllers", .backend), ("controller", .backend),
   ("routers", .backend), ("router", .backend),
   ("blueprints", .backend), ("blueprint", .backend)]

/-- `EXT_TYPE_MAP`: extension to layer table (secondary criterion). -/
def EXT_TYPE_MAP : List (String × Layer) :=
  [(".vue", .publishing), (".jsx", .publishing), (".tsx", .publishing),
   (".html", .publishing),
   (".css", .publishing), (".scss", .publishing), (".less", .publishing),
   (".svelte", .publishing),
   (".js", .logic), (".ts", .logic),
   (".py", .backend), (".rb", .backend), (".go", .backend),
   (".java", .backend), (".rs", .backend)]

/-- Classification of one discovered file, the loop body of
`_categorize_files`.  `fname` is `fpath.name`, `parts` is `rel.parts`
(directory components then the filename), `ext` is `fpath.suffix.lower()`.
The regex search for route decorators over the file's content
(`@\w+\.(route|get|post|put|delete|patch)\s*\(`, attempted only for `.py`
files and treated as a miss when the read raises) is abstracted into the
boolean `has_route_dec`, its outcome. -/
def categorize_file (fname : String) (parts : List String) (ext : String)
    (has_route_dec : Bool) : Layer :=
  if lower_str fname ∈ SKIP_FILES then .other
  else
    match parts.dropLast.reverse.findSome?
        (fun part => lookupKey (lower_str part) DIR_TYPE_MAP) with
    | some l => l
    | none =>
        if ext = ".py" ∧ has_route_dec = true then .backend
        else
          match lookupKey ext EXT_TYPE_MAP with
          | some l => l
          | none => .other

/-- C2.  The classifier's precedence, rule by rule: (i) a boilerplate
filename goes to "other" immediately; (ii) otherwise the deepest directory
component (lower-cased) that appears in `DIR_TYPE_MAP` decides; (iii) below
that, a Python file that contains the route-decorator pattern goes to
"backend"; (iv) otherwise `EXT_TYPE_MAP` decides, with "other" as the final
fallback. -/
theorem C2_categorize_rules (fname : String) (parts : List String)
    (ext : String) (has_route_dec : Bool) :
    (lower_str fname ∈ SKIP_FILES →
      categorize_file fname parts ext has_route_dec = .other)
    ∧ (lower_str fname ∉ SKIP_FILES →
        ∀ l, parts.dropLast.reverse.findSome?
            (fun part => lookupKey (lower_str part) DIR_TYPE_MAP) = some l →
          categorize_file fname parts ext has_route_dec = l)
    ∧ (lower_str fname ∉ SKIP_FILES →
        parts.dropLast.reverse.findSome?
            (fun part => lookupKey (lower_str part) DIR_TYPE_MAP) = none →
        ext = ".py" → has_route_dec = true →
        categorize_file fname parts ext has_route_dec = .backend)
    ∧ (lower_str fname ∉ SKIP_FILES →
        parts.dropLast.reverse.findSome?
            (fun part => lookupKey (lower_str part) DIR_TYPE_MAP) = none →
        ¬(ext = ".py" ∧ has_route_dec = true) →
        categorize_file fname parts ext has_route_dec =
          (lookupKey ext EXT_TYPE_MAP).getD .other) := by
  refine ⟨?_, ?_, ?_, ?_⟩
  · intro h
    simp [categorize_file, h]
  · intro h l hdir
    simp [categorize_file, h, hdir]
  · intro h hdir hpy hdec
    simp [categorize_file, h, hdir, hpy, hdec]
  · intro h hdir hnot
    simp only [categorize_file, h, if_neg, not_false_iff, hdir]
    rw [if_neg hnot]
    cases hext : lookupKey ext EXT_TYPE_MAP <;> simp [hext]

/-- Witness for C2: a `.py` file under a `views` directory is classified by
the nearest directory rule, to publishing, although its extension would say
backend. -/
theorem C2_categorize_rules_witness :
    categorize_file "user.py" ["backend", "views", "user.py"] ".py" true =
      Layer.publishing :=
  (C2_categorize_rules "user.py" ["backend", "views", "user.py"] ".py"
      true).2.1 (by decide) Layer.publishing (by decide)

-- ===================================================================
-- File discovery (`_scan_files`, `_is_data_dir`, the fixed filter sets)
-- ===================================================================

/-- `SKIP_DIRS`: directory names pruned during the walk. -/
def SKIP_DIRS : List String :=
  ["node_modules", ".git", "dist", "build", "__pycache__",
   ".venv", "venv", "env", ".next", ".nuxt", ".svelte-kit",
   ".idea", ".vscode", "coverage", ".cache", ".output",
   "doc", "docs", "logs", "log", "tmp", "temp"]

/-- `SKIP_EXTENSIONS`: the extension deny-list. -/
def SKIP_EXTENSIONS : List String :=
  [".pyc", ".pyo", ".map", ".lock", ".ico", ".png", ".jpg",
   ".jpeg", ".gif", ".svg", ".woff", ".woff2", ".ttf", ".eot",
   ".pem", ".log", ".txt", ".md", ".yaml", ".yml",
   ".toml", ".cfg", ".ini", ".env", ".gitignore"]

/-- `CODE_EXTENSIONS`: the extension allow-list. -/
def CODE_EXTENSIONS : List String :=
  [".vue", ".js", ".jsx", ".ts", ".tsx", ".svelte",
   ".py", ".rb", ".go", ".java", ".rs",
   ".html", ".css", ".scss", ".less",
   ".json"]

/-- `_is_data_dir`: matches `^\d{4}[_\-]\d{2}$` (ASCII digits; the model
restricts the regex's `\d` to ASCII). -/
def is_data_dir (s : String) : Bool :=
  match s.data with
  | [a, b, c, d, e, f, g] =>
      a.isDigit && b.isDigit && c.isDigit && d.isDigit &&
        (decide (e = '_') || decide (e = '-')) && f.isDigit && g.isDigit
  | _ => false

/-- Python `name.startswith('.')`. -/
def starts_with_dot (s : String) : Bool :=
  match s.data with
  | c :: _ => decide (c = '.')
  | [] => false

/-- Suffix alternatives of `VENDOR_PATTERNS`
(`[\.\-]min\.js$ | [\.\-]min\.css$ | [\.\-]bundle\.js$`). -/
def vendor_suffixes : List String :=
  [".min.js", "-min.js", ".min.css", "-min.css", ".bundle.js", "-bundle.js"]

/-- Anchored-start alternatives of `VENDOR_PATTERNS`
(`^\.eslintrc | ^webpack\.config | ^vite\.config | ^rollup\.config |
^babel\.config | ^tsconfig | ^jest\.config`). -/
def vendor_starts : List String :=
  [".eslintrc", "webpack.config", "vite.config", "rollup.config",
   "babel.config", "tsconfig", "jest.config"]

/-- `VENDOR_PATTERNS.search(fname)` as a boolean: case-insensitive via
lower-casing (the pattern carries `re.IGNORECASE`). -/
def vendor_match (fname : String) : Bool :=
  let low := lower_str fname
  vendor_suffixes.any (fun s => ends_with_str low s) ||
    vendor_starts.any (fun s => starts_with_str low s)

/-- Directory filter applied to `dirnames` inside `_scan_files`. -/
def keep_dir (d : String) : Bool :=
  decide (d ∉ SKIP_DIRS) && !(starts_with_dot d) && !(is_data_dir d)

/-- File filter of the inner loop of `_scan_files`. -/
def keep_file (fname : String) : Bool :=
  let ext := lower_str (path_suffix fname)
  decide (ext ∉ SKIP_EXTENSIONS) && decide (ext ∈ CODE_EXTENSIONS) &&
    !(vendor_match fname)

/-- A directory tree: named subdirectories plus the filenames of the
directory itself.  The filesystem side of `os.walk`. -/
inductive FTree where
  | node (dirs : List (String × FTree)) (files : List String) : FTree

/-- `_scan_files` as a fueled walk from the root: prune subdirectories with
`keep_dir`, keep files with `keep_file`, and return (directory components,
filename) pairs relative to the root.  `fuel` bounds the recursion depth;
any fuel at least the tree's height reproduces `os.walk` exactly, and the
filter properties proved below hold for every fuel. -/
def scan_tree : Nat → FTree → List (List String × String)
  | 0, _ => []
  | fuel + 1, FTree.node dirs files =>
      (files.filter keep_file).map (fun f => ([], f))
      ++ dirs.flatMap
          (fun dt =>
            if keep_dir dt.1 then
              (scan_tree fuel dt.2).map (fun pf => (dt.1 :: pf.1, pf.2))
            else [])

/-- C5.  Every file returned by discovery lies outside skipped, dotted and
dated-data directories, its lower-cased extension is in the allow-list and
not in the deny-list, and its name matches no vendor/minified/bundled/
build-config pattern (tested case-insensitively). -/
theorem C5_scan_filters :
    ∀ (fuel : Nat) (t : FTree) (ps : List String) (f : String),
      (ps, f) ∈ scan_tree fuel t →
      (∀ d ∈ ps, d ∉ SKIP_DIRS ∧ starts_with_dot d = false ∧
          is_data_dir d = false)
      ∧ lower_str (path_suffix f) ∉ SKIP_EXTENSIONS
      ∧ lower_str (path_suffix f) ∈ CODE_EXTENSIONS
      ∧ vendor_match f = false := by
  intro fuel
  induction fuel with
  | zero => intro t ps f h; simp [scan_tree] at h
  | succ fuel ih =>
      intro t ps f h
      cases t with
      | node dirs files =>
          rw [scan_tree] at h
          rcases List.mem_append.mp h with h1 | h1
          · rcases List.mem_map.mp h1 with ⟨g, hg, hgf⟩
            injection hgf with hps hf
            have hkeep : keep_file g = true := (List.mem_filter.mp hg).2
            subst hps
            subst hf
            unfold keep_file at hkeep
            simp only [Bool.and_eq_true, Bool.not_eq_true', decide_eq_true_eq] at hkeep
            exact ⟨by simp, hkeep.1.1, hkeep.1.2, hkeep.2⟩
          · rcases List.mem_flatMap.mp h1 with ⟨dt, hdt, hmem⟩
            by_cases hk : keep_dir dt.1 = true
            · rw [if_pos hk] at hmem
              rcases List.mem_map.mp hmem with ⟨pf, hpf, hpeq⟩
              injection hpeq with hps hf
              have hrec := ih dt.2 pf.1 pf.2 hpf
              subst hps
              subst hf
              unfold keep_dir at hk
              simp only [Bool.and_eq_true, Bool.not_eq_true',
                decide_eq_true_eq] at hk
              refine ⟨?_, hrec.2⟩
              intro d hd
              rcases List.mem_cons.mp hd with hd1 | hd1
              · subst hd1
                exact ⟨hk.1.1, hk.1.2, hk.2⟩
              · exact hrec.1 d hd1
            · rw [if_neg hk] at hmem
              simp at hmem

/-- Witness for C5 on a concrete tree: `views/Home.vue` survives scanning
of a tree that also contains a pruned `node_modules` directory and a
filtered `app.min.js`, and satisfies all filter facts. -/
theorem C5_scan_filters_witness :
    lower_str (path_suffix "Home.vue") ∈ CODE_EXTENSIONS ∧
      vendor_match "Home.vue" = false ∧
      (∀ d ∈ ["views"], d ∉ SKIP_DIRS ∧ starts_with_dot d = false ∧
        is_data_dir d = false) :=
  have h := C5_scan_filters 2
    (FTree.node
      [("views", FTree.node [] ["Home.vue"]),
       ("node_modules", FTree.node [] ["x.js"])]
      ["app.min.js", "main.py"])
    ["views"] "Home.vue" (by decide)
  ⟨h.2.2.1, h.2.2.2, h.1⟩

-- ===================================================================
-- Center-out group placement (`_center_out`)
-- ===================================================================

/-- The loop of `_center_out`: item 0 becomes the center, odd indices are
pushed onto the front of `above`, even indices are appended to `below`. -/
def center_out_loop {α : Type} :
    List α → Nat → List α → List α → List α → (List α × List α × List α)
  | [], _, above, center, below => (above, center, below)
  | x :: xs, i, above, center, below =>
      if i = 0 then center_out_loop xs (i + 1) above [x] below
      else if i % 2 = 1 then center_out_loop xs (i + 1) (x :: above) center below
      else center_out_loop xs (i + 1) above center (below ++ [x])

/-- `_center_out(items)`: identity on lists of length at most one, otherwise
`above ++ center ++ below` from the loop. -/
def center_out {α : Type} (items : List α) : List α :=
  if items.length ≤ 1 then items
  else
    let acc := center_out_loop items 0 [] [] []
    acc.1 ++ acc.2.1 ++ acc.2.2

/-- Elements at even positions 0, 2, 4, … of a list. -/
def everyOther {α : Type} : List α → List α
  | [] => []
  | [x] => [x]
  | x :: _ :: xs => x :: everyOther xs

theorem everyOther_cons {α : Type} (x : α) (l : List α) :
    everyOther (x :: l) = x :: everyOther l.tail := by
  cases l <;> rfl

theorem everyOther_length {α : Type} :
    ∀ (l : List α), (everyOther l).length = (l.length + 1) / 2
  | [] => by simp [everyOther]
  | [x] => by simp [everyOther]
  | x :: y :: xs => by
      have ih := everyOther_length xs
      simp [everyOther, ih]
      omega

theorem center_out_loop_spec {α : Type} :
    ∀ (xs : List α) (i : Nat) (above center below : List α), i ≠ 0 →
      center_out_loop xs i above center below =
        (if i % 2 = 1 then
          ((everyOther xs).reverse ++ above, center, below ++ everyOther xs.tail)
        else
          ((everyOther xs.tail).reverse ++ above, center, below ++ everyOther xs)) := by
  intro xs
  induction xs with
  | nil =>
      intro i above center below hi
      by_cases h : i % 2 = 1 <;> simp [center_out_loop, everyOther, h]
  | cons x xs ih =>
      intro i above center below hi
      by_cases h : i % 2 = 1
      · rw [if_pos h]
        rw [center_out_loop, if_neg hi, if_pos h]
        rw [ih (i + 1) (x :: above) center below (by omega)]
        rw [if_neg (by omega)]
        rw [everyOther_cons]
        simp
      · rw [if_neg h]
        rw [center_out_loop, if_neg hi, if_neg h]
        rw [ih (i + 1) above center (below ++ [x]) (by omega)]
        rw [if_pos (by omega)]
        rw [everyOther_cons]
        simp

theorem center_out_eq {α : Type} (x : α) (xs : List α) :
    center_out (x :: xs) =
      (everyOther xs).reverse ++ x :: everyOther xs.tail := by
  cases xs with
  | nil => simp [center_out, everyOther]
  | cons y ys =>
      rw [center_out]
      rw [if_neg (by simp)]
      show (center_out_loop (x :: y :: ys) 0 [] [] []).1 ++ _ ++ _ = _
      rw [center_out_loop]
      rw [if_pos rfl]
      rw [center_out_loop_spec (y :: ys) 1 [] [x] [] (by omega)]
      simp

/-- C6.  When the groups of a column arrive sorted with strictly decreasing
aggregate degree `g0 > g1 > … > gk`, the center-out rearrangement puts `g0`
at the middle index `⌊n/2⌋` of the final ordering, with the remaining groups
alternating around the center: the result is exactly
`reverse (odd-indexed groups) ++ g0 :: (even-indexed groups from index 2)`,
and `g0` strictly dominates every other group's degree. -/
theorem C6_center_out {α : Type} (degree : α → Nat) (l : List α) (g0 : α)
    (hhead : l.head? = some g0)
    (hsorted : l.Chain' (fun a b => degree b < degree a)) :
    (center_out l).get? (l.length / 2) = some g0
    ∧ center_out l = (everyOther l.tail).reverse ++ g0 :: everyOther l.tail.tail
    ∧ (∀ g ∈ l.tail, degree g < degree g0) := by
  cases l with
  | nil => simp at hhead
  | cons x xs =>
      have hx : x = g0 := by simpa using hhead
      subst hx
      have heq := center_out_eq x xs
      refine ⟨?_, by simpa using heq, ?_⟩
      · rw [heq]
        have hlen : ((everyOther xs).reverse).length = (x :: xs).length / 2 := by
          simp [everyOther_length]
        rw [← hlen]
        rw [List.get?_append_right (le_refl _)]
        simp
      · haveI : IsTrans α (fun a b => degree b < degree a) :=
          ⟨fun _ _ _ h1 h2 => lt_trans h2 h1⟩
        have hpw := List.chain'_iff_pairwise.mp hsorted
        intro g hg
        exact (List.pairwise_cons.mp hpw).1 g hg

/-- Witness for C6 on a concrete strictly decreasing column: degrees 5 > 3 >
2 > 1, the top group lands at index 2 of the rearranged order. -/
theorem C6_center_out_witness :
    (center_out [5, 3, 2, 1]).get? ([5, 3, 2, 1].length / 2) =
      some (5 : Nat) :=
  (C6_center_out (fun n => n) [5, 3, 2, 1] 5 (by decide)
      (List.Chain.cons (by decide)
        (List.Chain.cons (by decide)
          (List.Chain.cons (by decide) List.Chain.nil)))).1

-- ===================================================================
-- Column layout and vertical centering (`_generate_graph`, step 5 and 6)
-- ===================================================================

/-- The three laid-out layer columns (the "other" bucket is not drawn). -/
inductive LayerCol where
  | publishing : LayerCol
  | logic : LayerCol
  | backend : LayerCol
deriving DecidableEq, Repr

/-- `COL_X`: the fixed x coordinate of each layer column. -/
def COL_X : LayerCol → Nat
  | .publishing => 0
  | .logic => 600
  | .backend => 1200

/-- Height of one group box with `n` member files:
`GROUP_PAD_TOP + n*NODE_H + max(0, n-1)*NODE_GAP + GROUP_PAD_BOTTOM`. -/
def group_h (n : Nat) : Nat := 40 + n * 80 + (n - 1) * 16 + 20

/-- The `y_cursor` value after stacking the groups of a column: each group
advances the cursor by its height plus `GROUP_GAP = 40`. -/
def y_cursor_after (ns : List Nat) : Nat :=
  ns.foldl (fun y n => y + group_h n + 40) 0

/-- Total column height: `max(0, y_cursor - GROUP_GAP)` when the column has
groups, `0` otherwise (a nonempty column's cursor is at least 180, so the
natural subtraction agrees with the Python int arithmetic). -/
def col_height (ns : List Nat) : Nat :=
  if ns.isEmpty then 0 else y_cursor_after ns - 40

/-- `max(col_heights.values())` over the three columns. -/
def max_col_height (cols : LayerCol → List Nat) : Nat :=
  max (col_height (cols .publishing))
    (max (col_height (cols .logic)) (col_height (cols .backend)))

/-- The loop of the centering pass identifies a node's column by comparing
its x coordinate with the three `COL_X` values in order and takes the first
hit. -/
def bucket_of_x (x : Nat) : Option LayerCol :=
  [LayerCol.publishing, LayerCol.logic, LayerCol.backend].find?
    (fun b => COL_X b == x)

/-- The offset `(max_h - col_heights[bucket]) / 2` (Python float division,
exact in `ℚ`). -/
def center_offset (cols : LayerCol → List Nat) (b : LayerCol) : ℚ :=
  ((max_col_height cols : ℚ) - (col_height (cols b) : ℚ)) / 2

/-- A group ("directory") node of the emitted graph: fixed x per column and
a y coordinate (an integer before centering, possibly half-integral after). -/
structure DirNode where
  x : Nat
  y : ℚ
deriving DecidableEq, Repr

/-- Top-left y coordinates assigned to the successive groups of one column
(step 5: the `y_cursor` values at which groups are emitted). -/
def group_ys_from (y0 : Nat) : List Nat → List Nat
  | [] => []
  | n :: ns => y0 :: group_ys_from (y0 + group_h n + 40) ns

/-- The directory nodes emitted for one column before centering. -/
def layout_column (cols : LayerCol → List Nat) (b : LayerCol) : List DirNode :=
  (group_ys_from 0 (cols b)).map (fun (y : Nat) => ⟨COL_X b, (y : ℚ)⟩)

/-- Step 6 of `_generate_graph`: every directory node receives the centering
offset of the column matching its x coordinate. -/
def apply_centering (cols : LayerCol → List Nat) (nodes : List DirNode) :
    List DirNode :=
  nodes.map
    (fun nd =>
      match bucket_of_x nd.x with
      | some b => ⟨nd.x, nd.y + center_offset cols b⟩
      | none => nd)

theorem bucket_of_x_COL_X (b : LayerCol) : bucket_of_x (COL_X b) = some b := by
  cases b <;> rfl

/-- C7.  After layout, every group node of a column is shifted by the
uniform offset `(tallest column height − own column height) / 2`, and a
column whose height equals the tallest height is shifted by zero (its nodes
are unchanged). -/
theorem C7_vertical_centering (cols : LayerCol → List Nat) (b : LayerCol) :
    apply_centering cols (layout_column cols b) =
      (group_ys_from 0 (cols b)).map
        (fun (y : Nat) => ⟨COL_X b, (y : ℚ) + center_offset cols b⟩)
    ∧ (col_height (cols b) = max_col_height cols →
        apply_centering cols (layout_column cols b) = layout_column cols b) := by
  have hmain :
      apply_centering cols (layout_column cols b) =
        (group_ys_from 0 (cols b)).map
          (fun (y : Nat) => ⟨COL_X b, (y : ℚ) + center_offset cols b⟩) := by
    unfold apply_centering layout_column
    rw [List.map_map]
    apply List.map_congr_left
    intro y _
    simp [bucket_of_x_COL_X]
  refine ⟨hmain, ?_⟩
  intro htall
  rw [hmain]
  unfold layout_column
  apply List.map_congr_left
  intro y _
  have hoff : center_offset cols b = 0 := by
    unfold center_offset
    rw [htall]
    simp
  rw [hoff, add_zero]

/-- Witness for C7: with group sizes publishing = [1], logic = [1, 1],
backend = [] the logic column is the tallest (height 320 against 140 and 0)
and is left unshifted by the centering pass. -/
theorem C7_vertical_centering_witness :
    apply_centering
        (fun b => match b with
          | LayerCol.publishing => [1]
          | LayerCol.logic => [1, 1]
          | LayerCol.backend => [])
        (layout_column
          (fun b => match b with
            | LayerCol.publishing => [1]
            | LayerCol.logic => [1, 1]
            | LayerCol.backend => [])
          LayerCol.logic) =
      layout_column
        (fun b => match b with
          | LayerCol.publishing => [1]
          | LayerCol.logic => [1, 1]
          | LayerCol.backend => [])
        LayerCol.logic :=
  (C7_vertical_centering
      (fun b => match b with
        | LayerCol.publishing => [1]
        | LayerCol.logic => [1, 1]
        | LayerCol.backend => [])
      LayerCol.logic).2 (by decide)

-- ===================================================================
-- Diagnostics (`_build_diagnostics`)
-- ===================================================================

/-- The framework record returned by `_detect_framework`. -/
structure Framework where
  frontend : Option String
  backend : Option String
  languages : List String
deriving DecidableEq, Repr

/-- The four classification buckets, holding relative paths. -/
structure Buckets where
  publishing : List String
  logic : List String
  backend : List String
  other : List String
deriving DecidableEq, Repr

/-- The diagnostics record of `_build_diagnostics`. -/
structure Diagnostics where
  total_files : Nat
  page_count : Nat
  component_count : Nat
  logic_count : Nat
  backend_count : Nat
  other_count : Nat
  frontend_framework : Option String
  backend_framework : Option String
  languages : List String
deriving DecidableEq, Repr

/-- `_build_diagnostics`: counts per bucket; both `page_count` and
`component_count` read `len(buckets["publishing"])`. -/
def build_diagnostics (framework : Framework) (files : List String)
    (buckets : Buckets) : Diagnostics :=
  { total_files := files.length
    page_count := buckets.publishing.length
    component_count := buckets.publishing.length
    logic_count := buckets.logic.length
    backend_count := buckets.backend.length
    other_count := buckets.other.length
    frontend_framework := framework.frontend
    backend_framework := framework.backend
    languages := framework.languages }

/-- C10.  `page_count` and `component_count` both report the size of the
publishing bucket, so the two diagnostics fields are always equal. -/
theorem C10_page_eq_component (framework : Framework) (files : List String)
    (buckets : Buckets) :
    (build_diagnostics framework files buckets).page_count =
      (build_diagnostics framework files buckets).component_count := rfl

-- ===================================================================
-- Language detection from dependency manifests (`_detect_framework`)
-- ===================================================================

/-- One loop iteration of `_detect_framework` over a `package.json`
candidate, restricted to the language-list bookkeeping (the framework
fields do not feed back into the languages list).  A manifest is `none`
when `json.loads` raises; the whole loop body then runs under
`except Exception: pass`, so a malformed manifest contributes nothing.
A parsed manifest is its merged dependency-name list. -/
def js_langs_step (langs : List String) (m : Option (List String)) :
    List String :=
  match m with
  | none => langs
  | some deps =>
      let l1 := if "typescript" ∈ deps ∧ "TypeScript" ∉ langs then
          langs ++ ["TypeScript"]
        else langs
      if "JavaScript" ∉ l1 then l1 ++ ["JavaScript"] else l1

/-- `list(dict.fromkeys(...))`: deduplicate keeping first occurrences. -/
def dedup_keep_first (l : List String) : List String :=
  l.foldl (fun acc s => if s ∈ acc then acc else acc ++ [s]) []

/-- The languages list computed by `_detect_framework`: fold the
`package.json` candidates (root plus immediate non-excluded subdirectories;
each entry is `none` when the manifest fails to parse), then append
"Python" when a Python manifest or Python file was detected, then
deduplicate. -/
def detect_languages (manifests : List (Option (List String)))
    (has_python : Bool) : List String :=
  let langs := manifests.foldl js_langs_step []
  let langs2 := if has_python = true ∧ "Python" ∉ langs then
      langs ++ ["Python"]
    else langs
  dedup_keep_first langs2

theorem mem_dedup_keep_first_fold (x : String) (l : List String) :
    ∀ acc, x ∈ l.foldl (fun acc s => if s ∈ acc then acc else acc ++ [s]) acc ↔
      (x ∈ acc ∨ x ∈ l) := by
  induction l with
  | nil => intro acc; simp
  | cons s l ih =>
      intro acc
      rw [List.foldl_cons, ih]
      by_cases h : s ∈ acc
      · rw [if_pos h]
        constructor
        · intro hc
          rcases hc with hc | hc
          · exact Or.inl hc
          · exact Or.inr (List.mem_cons_of_mem _ hc)
        · intro hc
          rcases hc with hc | hc
          · exact Or.inl hc
          · rcases List.mem_cons.mp hc with hc | hc
            · exact Or.inl (hc ▸ h)
            · exact Or.inr hc
      · rw [if_neg h]
        simp only [List.mem_append, List.mem_singleton, List.mem_cons]
        tauto

theorem mem_dedup_keep_first (x : String) (l : List String) :
    x ∈ dedup_keep_first l ↔ x ∈ l := by
  unfold dedup_keep_first
  rw [mem_dedup_keep_first_fold]
  simp

theorem mem_js_append (l1 : List String) :
    "JavaScript" ∈ (if "JavaScript" ∉ l1 then l1 ++ ["JavaScript"] else l1) := by
  by_cases h : "JavaScript" ∉ l1
  · rw [if_pos h]; simp
  · rw [if_neg h]; simpa using h

theorem js_mem_step (langs : List String) (deps : List String) :
    "JavaScript" ∈ js_langs_step langs (some deps) :=
  mem_js_append _

theorem js_mem_fold (ms : List (Option (List String))) :
    ∀ acc, "JavaScript" ∈ ms.foldl js_langs_step acc ↔
      ("JavaScript" ∈ acc ∨ ∃ d, some d ∈ ms) := by
  induction ms with
  | nil => intro acc; simp
  | cons m ms ih =>
      intro acc
      rw [List.foldl_cons, ih]
      cases m with
      | none =>
          constructor
          · intro hc
            rcases hc with hc | ⟨d, hd⟩
            · exact Or.inl hc
            · exact Or.inr ⟨d, List.mem_cons_of_mem _ hd⟩
          · intro hc
            rcases hc with hc | ⟨d, hd⟩
            · exact Or.inl hc
            · rcases List.mem_cons.mp hd with hd | hd
              · exact absurd hd (by simp)
              · exact Or.inr ⟨d, hd⟩
      | some deps =>
          constructor
          · intro _
            exact Or.inr ⟨deps, List.mem_cons_self _ _⟩
          · intro _
            exact Or.inl (js_mem_step acc deps)

/-- Counterexample to C8.  A tree whose only dependency manifest exists but
is malformed (`json.loads` raises, modelled as the `none` candidate) and
that contains no Python: the returned languages list is empty — in
particular it does not contain "JavaScript", contradicting the claim that
the manifest's mere existence adds the base scripting language tag. -/
theorem C8_counterexample :
    detect_languages [none] false = [] ∧
      "JavaScript" ∉ detect_languages [none] false := by
  constructor <;> decide

/-- C8 (amended).  "JavaScript" appears in the languages list exactly when
at least one `package.json` candidate parses successfully; a manifest whose
parse fails contributes nothing at all (neither framework fields nor
language tags), because the whole loop body runs inside the
`try`/`except`. -/
theorem C8_js_iff_parsed (manifests : List (Option (List String)))
    (has_python : Bool) :
    "JavaScript" ∈ detect_languages manifests has_python ↔
      ∃ d, some d ∈ manifests := by
  unfold detect_languages
  rw [mem_dedup_keep_first]
  by_cases h : has_python = true ∧
      "Python" ∉ manifests.foldl js_langs_step []
  · rw [if_pos h]
    rw [List.mem_append]
    rw [js_mem_fold]
    simp
  · rw [if_neg h]
    rw [js_mem_fold]
    simp

/-- Witness for C8 (amended): one successfully parsed manifest makes
"JavaScript" appear. -/
theorem C8_js_iff_parsed_witness :
    "JavaScript" ∈ detect_languages [some ["vue"]] false :=
  (C8_js_iff_parsed [some ["vue"]] false).mpr ⟨["vue"], by decide⟩

-- ===================================================================
-- Text search (`search_in_files` and the `/api/project/search` handler)
-- ===================================================================

/-- Python `str.strip()`: drop leading and trailing whitespace. -/
def py_strip (s : String) : String :=
  String.mk
    (((s.data.dropWhile Char.isWhitespace).reverse.dropWhile
        Char.isWhitespace).reverse)

theorem length_dropWhile_le {χ : Type} (p : χ → Bool) (l : List χ) :
    (l.dropWhile p).length ≤ l.length := by
  induction l with
  | nil => simp
  | cons a l ih =>
      rw [List.dropWhile_cons]
      by_cases h : p a = true <;> simp [h] <;> omega

theorem py_strip_length_le (s : String) :
    (py_strip s).length ≤ s.length := by
  unfold py_strip
  show (((s.data.dropWhile Char.isWhitespace).reverse.dropWhile
      Char.isWhitespace).reverse).length ≤ s.data.length
  rw [List.length_reverse]
  calc ((s.data.dropWhile Char.isWhitespace).reverse.dropWhile
          Char.isWhitespace).length
      ≤ (s.data.dropWhile Char.isWhitespace).reverse.length :=
        length_dropWhile_le _ _
    _ = (s.data.dropWhile Char.isWhitespace).length := List.length_reverse _
    _ ≤ s.data.length := length_dropWhile_le _ _

/-- Bool test that `needle` occurs as a contiguous substring of `hay`
(Python's `in` on strings, character level). -/
def list_contains_sub {χ : Type} [DecidableEq χ] (needle : List χ) :
    List χ → Bool
  | [] => decide (needle = [])
  | c :: cs => isPrefixList needle (c :: cs) || list_contains_sub needle cs

/-- One matching line record: 1-based line number and the stripped content
truncated to 120 characters. -/
structure MatchEntry where
  line : Nat
  content : String
deriving DecidableEq, Repr

/-- Per-file search result: relative path, total match count, first 5
matches. -/
structure FileResult where
  file : String
  count : Nat
  matches' : List MatchEntry
deriving DecidableEq, Repr

/-- The successful search payload `{query, results, total_files}`. -/
structure SearchResult where
  query : String
  results : List FileResult
  total_files : Nat
deriving DecidableEq, Repr

/-- Stable insertion into a count-descending list: `x` goes before the
first entry with strictly smaller count (Python `sorted(..., reverse=True)`
keeps ties in encounter order). -/
def insertDesc (x : FileResult) : List FileResult → List FileResult
  | [] => [x]
  | y :: ys => if y.count < x.count then x :: y :: ys else y :: insertDesc x ys

/-- Sort by descending `count` (stable, matching Python's sort). -/
def sortDesc (l : List FileResult) : List FileResult :=
  l.foldr insertDesc []

theorem length_insertDesc (x : FileResult) (l : List FileResult) :
    (insertDesc x l).length = l.length + 1 := by
  induction l with
  | nil => rfl
  | cons y ys ih =>
      unfold insertDesc
      by_cases h : y.count < x.count <;> simp [h, ih]

theorem length_sortDesc (l : List FileResult) :
    (sortDesc l).length = l.length := by
  unfold sortDesc
  induction l with
  | nil => rfl
  | cons y ys ih => simp [List.foldr_cons, length_insertDesc, ih]

/-- `ProjectAnalyzer.search_in_files`, over an abstract file index: each
file is its relative path plus its lines.  `path_ok` models
`root.exists() and root.is_dir()` (the function's own error return);
per-line matching is case-insensitive substring search, match content is
`line.strip()[:120]`, at most 5 matches are kept per file, files with no
match are dropped, and results are sorted by descending count.  Unreadable
files are simply absent from the index. -/
def search_in_files (path_ok : Bool) (files : List (String × List String))
    (query : String) : Except String SearchResult :=
  if path_ok = false then Except.error "Directory not found"
  else
    let ql := lower_str query
    let results := files.filterMap
      (fun fp =>
        let ms := fp.2.enum.filterMap
          (fun il =>
            if list_contains_sub ql.data (lower_str il.2).data then
              some ⟨il.1 + 1, (py_strip il.2).take 120⟩
            else none)
        if ms.isEmpty then none
        else some ⟨fp.1, ms.length, ms.take 5⟩)
    let sorted := sortDesc results
    Except.ok ⟨query, sorted, sorted.length⟩

/-- The `/api/project/search` handler `search_project`: the query is
stripped, a stripped query shorter than 2 characters is rejected before any
search, otherwise `search_in_files` runs. -/
def search_project (raw_query : String) (path_ok : Bool)
    (files : List (String × List String)) : Except String SearchResult :=
  let query := py_strip raw_query
  if query.length < 2 then
    Except.error "Query must be at least 2 characters"
  else search_in_files path_ok files query

/-- Counterexample to C9.  The raw query `"a "` has length 2 ≥ minLength,
yet the call is rejected: the handler strips the query before the length
check, so a whitespace-padded short query never reaches the search even
with a valid root directory. -/
theorem C9_counterexample :
    ("a ").length = 2 ∧
      search_project "a " true [] =
        Except.error "Query must be at least 2 characters" :=
  ⟨rfl, rfl⟩

/-- C9 (amended).  (i) A raw query shorter than minLength = 2 is always
rejected with the length error and no search runs; (ii) more precisely the
check applies to the stripped query: whenever the stripped query is shorter
than 2 the call is rejected; (iii) when the stripped query has length at
least 2 and the root path is a directory, the normal shape
`{query, total_files, results}` is returned, with the query field holding
the stripped query and `total_files` equal to the number of result
entries. -/
theorem C9_search_min_length (raw_query : String) (path_ok : Bool)
    (files : List (String × List String)) :
    (raw_query.length < 2 →
      search_project raw_query path_ok files =
        Except.error "Query must be at least 2 characters")
    ∧ ((py_strip raw_query).length < 2 →
        search_project raw_query path_ok files =
          Except.error "Query must be at least 2 characters")
    ∧ (2 ≤ (py_strip raw_query).length → path_ok = true →
        ∃ r, search_project raw_query path_ok files = Except.ok r ∧
          r.query = py_strip raw_query ∧
          r.total_files = r.results.length) := by
  refine ⟨?_, ?_, ?_⟩
  · intro h
    have hs : (py_strip raw_query).length < 2 :=
      lt_of_le_of_lt (py_strip_length_le raw_query) h
    unfold search_project
    rw [if_pos hs]
  · intro hs
    unfold search_project
    rw [if_pos hs]
  · intro hs hok
    unfold search_project
    rw [if_neg (by omega)]
    unfold search_in_files
    rw [if_neg (by simp [hok])]
    exact ⟨_, rfl, rfl, rfl⟩

/-- Witness for C9 (amended): the query `"ok"` over an empty index returns
the normal shape. -/
theorem C9_search_min_length_witness :
    ∃ r, search_project "ok" true [] = Except.ok r ∧
      r.query = py_strip "ok" ∧ r.total_files = r.results.length :=
  (C9_search_min_length "ok" true []).2.2 (by decide) rfl

-- ===================================================================
-- Blueprint prefixes and the route map (`_extract_edges`, first passes)
-- ===================================================================

/-- Python `prefix.rstrip('/')` on the character level. -/
def rstripSlashes (l : List Char) : List Char :=
  (l.reverse.dropWhile (fun c => decide (c = '/'))).reverse

/-- `prefix.rstrip('/') + '/' + route_path.lstrip('/')`: the full route path
formed from a blueprint prefix and a decorator literal. -/
def combine_path (pfx path : String) : String :=
  String.mk
    (rstripSlashes pfx.data ++ '/' :: path.data.dropWhile (fun c => decide (c = '/')))

/-- The merge loop after the first pass of `_extract_edges`: for each
captured `register_blueprint(var, url_prefix=...)` pair, look up the file
that defines the blueprint variable and attach the registration's prefix
there — but only when that (file, variable) slot has no prefix yet (inline
constructor prefixes were stored first and always win).  `pm` is the
flattened `bp_prefix_map` keyed by (file, variable), `vtf` is
`bp_var_to_file` (relative paths are nonempty strings, so Python's `if
bp_file` truthiness test is the `some` case). -/
def merge_step (vtf : List (String × String))
    (pm : List ((String × String) × String)) (r : String × String) :
    List ((String × String) × String) :=
  match lookupKey r.1 vtf with
  | none => pm
  | some file =>
      if (lookupKey (file, r.1) pm).isSome then pm
      else pm ++ [((file, r.1), r.2)]

def merge_registrations (pm : List ((String × String) × String))
    (vtf : List (String × String)) (regs : List (String × String)) :
    List ((String × String) × String) :=
  regs.foldl (merge_step vtf) pm

/-- The route-map update for one route decorator `(var, route_path)` found
in file `rel`, given the file's resolved prefix `pfx` for `var` (empty
string when absent, Python's falsy default): when the prefix is nonempty
the combined full path is stored (overwriting), and the bare literal is
stored as a fallback only when not already present. -/
def add_route (rm : List (String × String)) (rel pfx path : String) :
    List (String × String) :=
  let rm1 := if pfx = "" then rm else dict_insert rm (combine_path pfx path) rel
  if (lookupKey path rm1).isSome then rm1 else rm1 ++ [(path, rel)]

theorem lookupKey_dict_insert_self {κ β : Type} [DecidableEq κ] (l : List (κ × β))
    (k : κ) (v : β) : lookupKey k (dict_insert l k v) = some v := by
  unfold dict_insert
  by_cases h : (lookupKey k l).isSome = true
  · rw [if_pos h]
    rw [lookupKey_replaceKey]
    rw [if_pos rfl]
    cases hl : lookupKey k l with
    | none => rw [hl] at h; simp at h
    | some w => simp
  · rw [if_neg h]
    rw [lookupKey_append]
    cases hl : lookupKey k l with
    | none => simp
    | some w => rw [hl] at h; simp at h

theorem lookupKey_dict_insert_other {κ β : Type} [DecidableEq κ]
    (l : List (κ × β)) (k k' : κ) (v : β) (hne : k ≠ k') :
    lookupKey k' (dict_insert l k v) = lookupKey k' l := by
  unfold dict_insert
  by_cases h : (lookupKey k l).isSome = true
  · rw [if_pos h]
    rw [lookupKey_replaceKey]
    rw [if_neg hne]
  · rw [if_neg h]
    rw [lookupKey_append]
    cases hl : lookupKey k' l with
    | none => simp [hne]
    | some w => simp

/-- C4.  Two halves.

First half: characterization of the merged blueprint-prefix map.  For every
(declaring file, variable) slot: an inline constructor prefix is never
overwritten by registrations; a slot with no inline prefix receives the
prefix of the first registration naming a variable that the slot's file
declares; slots of files that do not declare the variable are untouched.

Second half: one route-map update.  With a nonempty resolved prefix the
combined full path maps to the defining file; a bare literal absent from
the map before the update maps to the defining file afterwards; a bare
literal already present keeps its previous target (the fallback
registration happens only when the key is not already present). -/
theorem C4_blueprint_routes :
    (∀ (vtf regs : List (String × String))
        (pm : List ((String × String) × String)) (file var : String),
      lookupKey (file, var) (merge_registrations pm vtf regs) =
        (match lookupKey (file, var) pm with
         | some p => some p
         | none =>
             if lookupKey var vtf = some file then
               (regs.find? (fun r => decide (r.1 = var))).map (fun r => r.2)
             else none))
    ∧ (∀ (rm : List (String × String)) (rel pfx path : String),
        (pfx ≠ "" →
          lookupKey (combine_path pfx path) (add_route rm rel pfx path) =
            some rel)
        ∧ (lookupKey path rm = none →
            lookupKey path (add_route rm rel pfx path) = some rel)
        ∧ (∀ r0, lookupKey path rm = some r0 →
            (pfx = "" ∨ combine_path pfx path ≠ path) →
            lookupKey path (add_route rm rel pfx path) = some r0)) := by
  constructor
  · intro vtf regs
    induction regs with
    | nil =>
        intro pm file var
        unfold merge_registrations
        simp only [List.foldl_nil, List.find?_nil, Option.map_none']
        cases lookupKey (file, var) pm with
        | none => by_cases h : lookupKey var vtf = some file <;> simp [h]
        | some p => rfl
    | cons r regs ih =>
        intro pm file var
        rw [show merge_registrations pm vtf (r :: regs) =
              merge_registrations (merge_step vtf pm r) vtf regs from rfl]
        rw [ih]
        by_cases hvar : r.1 = var
        · subst hvar
          rw [List.find?_cons_of_pos _ (by simp)]
          cases hvtf : lookupKey r.1 vtf with
          | none =>
              simp only [merge_step, hvtf]
              cases lookupKey (file, r.1) pm <;> simp
          | some f' =>
              simp only [merge_step, hvtf]
              by_cases hslot : (lookupKey (f', r.1) pm).isSome = true
              · rw [if_pos hslot]
                cases hpm : lookupKey (file, r.1) pm with
                | some p => simp
                | none =>
                    by_cases hfile : f' = file
                    · subst hfile
                      rw [hpm] at hslot
                      simp at hslot
                    · have hcond : ¬(some f' = some file) := by
                        intro hc
                        injection hc with hc
                        exact hfile hc
                      simp only [hpm]
                      rw [if_neg hcond, if_neg hcond]
              · rw [if_neg hslot]
                rw [lookupKey_append]
                cases hpm : lookupKey (file, r.1) pm with
                | some p => simp
                | none =>
                    by_cases hfile : f' = file
                    · subst hfile
                      rw [if_pos rfl]
                      simp
                    · have hcond : ¬(some f' = some file) := by
                        intro hc
                        injection hc with hc
                        exact hfile hc
                      rw [if_neg (by
                        intro hc
                        injection hc with hc1 _
                        exact hfile hc1)]
                      simp only [hpm]
                      rw [if_neg hcond, if_neg hcond]
        · rw [List.find?_cons_of_neg _ (by simp [hvar])]
          cases hvtf : lookupKey r.1 vtf with
          | none => simp only [merge_step, hvtf]
          | some f' =>
              simp only [merge_step, hvtf]
              by_cases hslot : (lookupKey (f', r.1) pm).isSome = true
              · rw [if_pos hslot]
              · rw [if_neg hslot]
                rw [lookupKey_append]
                rw [if_neg (by
                  intro hc
                  injection hc with _ hc2
                  exact hvar hc2)]
                cases lookupKey (file, var) pm <;> rfl
  · intro rm rel pfx path
    refine ⟨?_, ?_, ?_⟩
    · intro hpfx
      unfold add_route
      simp only [if_neg hpfx]
      by_cases hbare :
          (lookupKey path (dict_insert rm (combine_path pfx path) rel)).isSome = true
      · rw [if_pos hbare]
        exact lookupKey_dict_insert_self _ _ _
      · rw [if_neg hbare]
        rw [lookupKey_append]
        rw [lookupKey_dict_insert_self]
    · intro hnone
      unfold add_route
      by_cases hpfx : pfx = ""
      · simp only [if_pos hpfx]
        rw [hnone]
        simp only [Option.isSome_none, Bool.false_eq_true, if_neg,
          not_false_iff]
        rw [lookupKey_append, hnone]
        simp
      · simp only [if_neg hpfx]
        by_cases hfull : combine_path pfx path = path
        · have heq :
              lookupKey path (dict_insert rm (combine_path pfx path) rel) =
                some rel := by
            rw [hfull]
            exact lookupKey_dict_insert_self _ _ _
          rw [if_pos (by rw [heq]; rfl)]
          exact heq
        · have heq :
              lookupKey path (dict_insert rm (combine_path pfx path) rel) =
                lookupKey path rm :=
            lookupKey_dict_insert_other _ _ _ _ hfull
          rw [heq, hnone]
          simp only [Option.isSome_none, Bool.false_eq_true, if_neg,
            not_false_iff]
          rw [lookupKey_append, heq, hnone]
          simp
    · intro r0 hr0 hcase
      unfold add_route
      rcases hcase with hpfx | hfull
      · simp only [if_pos hpfx]
        rw [if_pos (by rw [hr0]; rfl)]
        exact hr0
      · by_cases hpfx : pfx = ""
        · simp only [if_pos hpfx]
          rw [if_pos (by rw [hr0]; rfl)]
          exact hr0
        · simp only [if_neg hpfx]
          have heq :
              lookupKey path (dict_insert rm (combine_path pfx path) rel) =
                lookupKey path rm :=
            lookupKey_dict_insert_other _ _ _ _ hfull
          rw [if_pos (by rw [heq, hr0]; rfl)]
          rw [heq]
          exact hr0

/-- Witness for C4: the registration prefix `/capi` attaches to `c.py`
(declaring file of `cp`, no inline prefix), while the inline prefix
`/inline` of `bp` in `a.py` survives a competing registration; and a route
decorator `/list` in `c.py` with resolved prefix `/capi` registers the full
path `/capi/list`. -/
theorem C4_blueprint_routes_witness :
    lookupKey ("a.py", "bp")
        (merge_registrations [(("a.py", "bp"), "/inline")]
          [("bp", "a.py"), ("cp", "c.py")]
          [("bp", "/reg"), ("cp", "/capi")]) = some "/inline"
    ∧ lookupKey ("c.py", "cp")
        (merge_registrations [(("a.py", "bp"), "/inline")]
          [("bp", "a.py"), ("cp", "c.py")]
          [("bp", "/reg"), ("cp", "/capi")]) = some "/capi"
    ∧ lookupKey (combine_path "/capi" "/list")
        (add_route [] "c.py" "/capi" "/list") = some "c.py" := by
  refine ⟨?_, ?_, ?_⟩
  · rw [C4_blueprint_routes.1 [("bp", "a.py"), ("cp", "c.py")]
      [("bp", "/reg"), ("cp", "/capi")] [(("a.py", "bp"), "/inline")]
      "a.py" "bp"]
    decide
  · rw [C4_blueprint_routes.1 [("bp", "a.py"), ("cp", "c.py")]
      [("bp", "/reg"), ("cp", "/capi")] [(("a.py", "bp"), "/inline")]
      "c.py" "cp"]
    decide
  · exact (C4_blueprint_routes.2 [] "c.py" "/capi" "/list").1 (by decide)

-- ===================================================================
-- API-route matching (`_match_api_route` and the endpoint normalization
-- of `_extract_edges`)
-- ===================================================================

/-- Skip to just past the first closing brace, the tail consumed by one
match of `\x7b[^\x7d]*\x7d` after its opening delimiters. -/
def drop_to_brace : List Char → Option (List Char)
  | [] => none
  | c :: cs => if c = '\x7d' then some cs else drop_to_brace cs

/-- `re.sub(r'^\$\{[^}]*\}', '', api_path)`: strip one leading
interpolated-variable prefix when present. -/
def strip_leading_interp (s : String) : String :=
  match s.data with
  | '$' :: '\x7b' :: rest =>
      (match drop_to_brace rest with
       | some r => String.mk r
       | none => s)
  | _ => s

/-- `re.sub(r'\$\{[^}]*\}', '*', ...)`: replace every interpolation with a
single `*`.  Fueled scan; every step consumes at least one character, so
fuel equal to the input length reproduces the regex substitution. -/
def wildcard_interp : Nat → List Char → List Char
  | 0, l => l
  | _ + 1, [] => []
  | fuel + 1, c :: cs =>
      if c = '$' then
        match cs with
        | '\x7b' :: rest =>
            (match drop_to_brace rest with
             | some r => '*' :: wildcard_interp fuel r
             | none => c :: wildcard_interp fuel cs)
        | _ => c :: wildcard_interp fuel cs
      else c :: wildcard_interp fuel cs

/-- Tokens of a route pattern after Flask-parameter replacement:
`re.sub(r'<[^>]+>', '[^/]+', route_pattern)` turns every `<name>` segment
into a one-segment wildcard; every other character is matched literally
(route patterns carrying further regex metacharacters are outside the
model). -/
inductive RTok where
  | lit (c : Char) : RTok
  | param : RTok
deriving DecidableEq, Repr

/-- Split at the first `>`: the characters before it and the tail after. -/
def splitAtGt : List Char → Option (List Char × List Char)
  | [] => none
  | c :: cs =>
      if c = '>' then some ([], cs)
      else (splitAtGt cs).map (fun p => (c :: p.1, p.2))

/-- Tokenizer for route patterns: a `<...>` group with a nonempty body
becomes one parameter token, everything else stays literal.  Fueled; every
step consumes at least one character. -/
def tokenizeF : Nat → List Char → List RTok
  | 0, l => l.map RTok.lit
  | _ + 1, [] => []
  | fuel + 1, c :: cs =>
      if c = '<' then
        match splitAtGt cs with
        | some (pre, post) =>
            if pre.isEmpty then RTok.lit '<' :: tokenizeF fuel cs
            else RTok.param :: tokenizeF fuel post
        | none => RTok.lit '<' :: tokenizeF fuel cs
      else RTok.lit c :: tokenizeF fuel cs

/-- Tokenize a route pattern (fuel = length suffices). -/
def tokenize (l : List Char) : List RTok := tokenizeF l.length l

/-- `re.fullmatch` of a tokenized pattern: literals match exactly, a
parameter matches one or more non-`/` characters (with backtracking).
Fueled; every recursive call shrinks tokens + characters. -/
def tokMatchF : Nat → List RTok → List Char → Bool
  | 0, _, _ => false
  | _ + 1, [], [] => true
  | _ + 1, [], _ :: _ => false
  | _ + 1, RTok.lit _ :: _, [] => false
  | fuel + 1, RTok.lit c :: ts, d :: ds => decide (c = d) && tokMatchF fuel ts ds
  | _ + 1, RTok.param :: _, [] => false
  | fuel + 1, RTok.param :: ts, d :: ds =>
      if d = '/' then false
      else tokMatchF fuel ts ds || tokMatchF fuel (RTok.param :: ts) ds

/-- `re.fullmatch(re.sub(r'<[^>]+>', '[^/]+', pat), s)` as a boolean. -/
def param_fullmatch (pat s : String) : Bool :=
  tokMatchF (pat.data.length + s.data.length + 1) (tokenize pat.data) s.data

/-- `normalized.split('?')[0].rstrip('/')`. -/
def clean_path (s : String) : String :=
  String.mk (rstripSlashes (s.data.takeWhile (fun c => decide (c ≠ '?'))))

/-- `route_pattern.startswith('/')`. -/
def starts_with_slash (s : String) : Bool :=
  match s.data with
  | c :: _ => decide (c = '/')
  | [] => false

/-- `_match_api_route(api_path, route_map)`: strip a leading interpolation,
then try, in order, exact dictionary lookup; lookup after dropping the
query string and trailing slashes; parameterized full match over the route
map in insertion order; suffix match against any route starting with `/`. -/
def match_api_route (api_path : String) (route_map : List (String × String)) :
    Option String :=
  let normalized := strip_leading_interp api_path
  match lookupKey normalized route_map with
  | some t => some t
  | none =>
      let clean := clean_path normalized
      match lookupKey clean route_map with
      | some t => some t
      | none =>
          match route_map.find? (fun rt => param_fullmatch rt.1 clean) with
          | some rt => some rt.2
          | none =>
              match route_map.find?
                  (fun rt => starts_with_slash rt.1 && ends_with_str clean rt.1) with
              | some rt => some rt.2
              | none => none

/-- Modelled from the claim's wording (and spec sentence): the same
matching cascade, but run on the argument normalized by stripping a leading
interpolation AND replacing every remaining interpolation with `*` — the
claim attributes the display normalization of `_extract_edges` to the
matcher. -/
def match_api_route_claim (api_path : String)
    (route_map : List (String × String)) : Option String :=
  let stripped := strip_leading_interp api_path
  let normalized := String.mk (wildcard_interp stripped.data.length stripped.data)
  match lookupKey normalized route_map with
  | some t => some t
  | none =>
      let clean := clean_path normalized
      match lookupKey clean route_map with
      | some t => some t
      | none =>
          match route_map.find? (fun rt => param_fullmatch rt.1 clean) with
          | some rt => some rt.2
          | none =>
              match route_map.find?
                  (fun rt => starts_with_slash rt.1 && ends_with_str clean rt.1) with
              | some rt => some rt.2
              | none => none

/-- Counterexample to C3.  The fetch argument `/api/v/${a/b}` (an
interpolation whose expression contains a slash) against the route map
`{"/api/v/<x>": "backend/app.py"}`: under the claim's normalization the
argument becomes `/api/v/*` and the parameterized rule matches, but the
code matches the raw `/api/v/${a/b}` — the one-segment wildcard `[^/]+`
cannot cross the inner slash and no rule fires, so no api_call edge is
emitted. -/
theorem C3_counterexample :
    match_api_route_claim "/api/v/${a/b}" [("/api/v/<x>", "backend/app.py")] =
      some "backend/app.py"
    ∧ match_api_route "/api/v/${a/b}" [("/api/v/<x>", "backend/app.py")] =
        none := by
  constructor <;> rfl

/-- C3 (amended).  For matching, the call argument is normalized only by
stripping a leading interpolated-variable prefix (interior interpolations
are matched verbatim; replacing them with `*` is done separately, for the
recorded endpoint string only).  The normalized string is then matched by,
in order: exact route-map lookup; lookup after stripping the query string
and trailing slashes; parameterized full match; suffix match against any
route starting with a separator — the first successful rule decides, and if
none fires there is no match. -/
theorem C3_match_rules (api_path : String) (route_map : List (String × String)) :
    (∀ t, lookupKey (strip_leading_interp api_path) route_map = some t →
      match_api_route api_path route_map = some t)
    ∧ (∀ t, lookupKey (strip_leading_interp api_path) route_map = none →
        lookupKey (clean_path (strip_leading_interp api_path)) route_map = some t →
        match_api_route api_path route_map = some t)
    ∧ (∀ rt, lookupKey (strip_leading_interp api_path) route_map = none →
        lookupKey (clean_path (strip_leading_interp api_path)) route_map = none →
        route_map.find?
            (fun rt => param_fullmatch rt.1
              (clean_path (strip_leading_interp api_path))) = some rt →
        match_api_route api_path route_map = some rt.2)
    ∧ (∀ rt, lookupKey (strip_leading_interp api_path) route_map = none →
        lookupKey (clean_path (strip_leading_interp api_path)) route_map = none →
        route_map.find?
            (fun rt => param_fullmatch rt.1
              (clean_path (strip_leading_interp api_path))) = none →
        route_map.find?
            (fun rt => starts_with_slash rt.1 &&
              ends_with_str (clean_path (strip_leading_interp api_path)) rt.1) =
          some rt →
        match_api_route api_path route_map = some rt.2)
    ∧ (lookupKey (strip_leading_interp api_path) route_map = none →
        lookupKey (clean_path (strip_leading_interp api_path)) route_map = none →
        route_map.find?
            (fun rt => param_fullmatch rt.1
              (clean_path (strip_leading_interp api_path))) = none →
        route_map.find?
            (fun rt => starts_with_slash rt.1 &&
              ends_with_str (clean_path (strip_leading_interp api_path)) rt.1) =
          none →
        match_api_route api_path route_map = none) := by
  refine ⟨?_, ?_, ?_, ?_, ?_⟩
  · intro t h1
    unfold match_api_route
    simp only [h1]
  · intro t h1 h2
    unfold match_api_route
    simp only [h1, h2]
  · intro rt h1 h2 h3
    unfold match_api_route
    simp only [h1, h2, h3]
  · intro rt h1 h2 h3 h4
    unfold match_api_route
    simp only [h1, h2, h3, h4]
  · intro h1 h2 h3 h4
    unfold match_api_route
    simp only [h1, h2, h3, h4]

/-- Witness for C3 (amended): `/api/list?page=1` misses the exact rule and
matches `/api/list` after query stripping. -/
theorem C3_match_rules_witness :
    match_api_route "/api/list?page=1" [("/api/list", "backend/app.py")] =
      some "backend/app.py" :=
  (C3_match_rules "/api/list?page=1" [("/api/list", "backend/app.py")]).2.1
    "backend/app.py" (by decide) (by decide)
